import Mathlib

/-!
# Verification of the phone-catalog scraping pipeline

Shallow embedding of the core logic of `src/test_code.py`:

* the association-list dictionary semantics of Python `dict` (insertion
  order, last-write-wins update),
* the Normalizer `format_scraped_data` (canonical record shape, price
  parsing, `Launch` derived fields, the eight canonical group remaps),
* the Extractor `scrape_product_details` (group-title cleaning, row key /
  value canonicalization),
* the Ledger (`load_processed_links` / `save_processed_link`) and the diff
  against harvested links in `run`,
* the per-item orchestration loop of `run` with its failure isolation.

Machine strings are modelled as Lean `String` (`List Char` data); the ASCII
fragments of Python character classes (`\w`, `\s`, `str.strip`) are modelled
explicitly below.
-/

set_option maxRecDepth 8000

namespace Scraper

/-- ASCII fragment of the whitespace set used by Python `str.strip()` and the
regex class `\s`: space, tab, newline, carriage return, vertical tab, form
feed.  (Python also strips some further Unicode spaces; the repository only
handles ASCII-delimited markup text.) -/
def isPyWs (c : Char) : Bool :=
  c == ' ' || c == '\t' || c == '\n' || c == '\r' || c == '\x0b' || c == '\x0c'

/-- ASCII fragment of the regex class `\w`: letters, digits and underscore. -/
def isWordChar (c : Char) : Bool := c.isAlphanum || c == '_'

/-- Characters matched by the regex class `[^\w\s]`. -/
def isSymChar (c : Char) : Bool := !isWordChar c && !isPyWs c

/-- Python `str.strip()`: drop leading and trailing whitespace. -/
def pyStrip (s : String) : String :=
  String.mk (((s.data.dropWhile isPyWs).reverse.dropWhile isPyWs).reverse)

theorem string_mk_data (s : String) : String.mk s.data = s := by
  cases s; rfl

theorem string_data_append (a b : String) : (a ++ b).data = a.data ++ b.data := by
  cases a; cases b; rfl

theorem string_append_colon_inj (a b : String) (h : a ++ ":" = b ++ ":") : a = b := by
  have hd : a.data ++ [':'] = b.data ++ [':'] := by
    have := congrArg String.data h
    rwa [string_data_append, string_data_append] at this
  have : a.data = b.data := by
    have h1 := congrArg List.reverse hd
    simp only [List.reverse_append, List.reverse_cons, List.reverse_nil, List.nil_append,
      List.singleton_append, List.cons.injEq] at h1
    exact List.reverse_injective h1.2
  calc a = String.mk a.data := (string_mk_data a).symm
    _ = String.mk b.data := by rw [this]
    _ = b := string_mk_data b

/-! ## Association-list model of Python `dict`

Python dictionaries preserve insertion order; assigning to an existing key
replaces its value in place, assigning to a fresh key appends it.  Keys are
compared by string equality. -/

/-- `d[k]` lookup (`None`-free model: `none` = key absent). -/
def assocLookup {α : Type} : List (String × α) → String → Option α
  | [], _ => none
  | p :: rest, k => if p.fst = k then some p.snd else assocLookup rest k

/-- `k in d`. -/
def hasKey {α : Type} : List (String × α) → String → Bool
  | [], _ => false
  | p :: rest, k => if p.fst = k then true else hasKey rest k

/-- Replace the value stored at an existing key, keeping its position. -/
def setKey {α : Type} : List (String × α) → String → α → List (String × α)
  | [], _, _ => []
  | p :: rest, k, v => if p.fst = k then (k, v) :: setKey rest k v else p :: setKey rest k v

/-- Python `d[k] = v`: in-place update when the key exists, append otherwise. -/
def dictInsert {α : Type} (m : List (String × α)) (k : String) (v : α) : List (String × α) :=
  if hasKey m k then setKey m k v else m ++ [(k, v)]

theorem assocLookup_setKey {α : Type} (m : List (String × α)) (k : String) (v : α) (kq : String) :
    assocLookup (setKey m k v) kq =
      if kq = k then (if hasKey m k then some v else none) else assocLookup m kq := by
  induction m with
  | nil => by_cases h : kq = k <;> simp [setKey, assocLookup, hasKey, h]
  | cons p rest ih =>
    by_cases hp : p.fst = k
    · by_cases hq : kq = k
      · subst hq
        simp [setKey, hp, assocLookup, hasKey]
      · have hpq : ¬ p.fst = kq := by
          intro hc; exact hq (by rw [← hc, hp])
        have hkq : ¬ k = kq := fun hc => hq hc.symm
        simp [setKey, hp, assocLookup, hasKey, hq, hpq, hkq, ih]
    · by_cases hq : kq = k
      · subst hq
        by_cases hpk : p.fst = kq
        · exact absurd hpk hp
        · simp [setKey, hp, assocLookup, hasKey, hpk, ih]
      · simp [setKey, hp, assocLookup, hasKey, hq, ih]

theorem assocLookup_none_of_hasKey_false {α : Type} (m : List (String × α)) (k : String)
    (h : hasKey m k = false) : assocLookup m k = none := by
  induction m with
  | nil => rfl
  | cons p rest ih =>
    by_cases hp : p.fst = k
    · simp [hasKey, hp] at h
    · simp [hasKey, hp] at h
      simp [assocLookup, hp, ih h]

theorem assocLookup_append {α : Type} (m1 m2 : List (String × α)) (k : String) :
    assocLookup (m1 ++ m2) k =
      match assocLookup m1 k with
      | some v => some v
      | none => assocLookup m2 k := by
  induction m1 with
  | nil => simp [assocLookup]
  | cons p rest ih =>
    by_cases hp : p.fst = k <;> simp [assocLookup, hp, ih]

theorem assocLookup_dictInsert {α : Type} (m : List (String × α)) (k : String) (v : α)
    (kq : String) :
    assocLookup (dictInsert m k v) kq = if kq = k then some v else assocLookup m kq := by
  unfold dictInsert
  by_cases h : hasKey m k
  · simp [h, assocLookup_setKey]
  · simp only [h, if_false, Bool.false_eq_true, ite_false]
    rw [assocLookup_append]
    by_cases hq : kq = k
    · subst hq
      rw [assocLookup_none_of_hasKey_false m kq (by simpa using h)]
      simp [assocLookup]
    · have hkq : ¬ k = kq := fun hc => hq hc.symm
      have : assocLookup [(k, v)] kq = none := by
        simp [assocLookup, hkq]
      cases hm : assocLookup m kq <;> simp [hm, this, hq]

theorem mem_setKey {α : Type} (m : List (String × α)) (k : String) (v : α) (p : String × α)
    (hp : p ∈ setKey m k v) : p = (k, v) ∨ p ∈ m := by
  induction m with
  | nil => simp [setKey] at hp
  | cons q rest ih =>
    by_cases hq : q.fst = k
    · simp only [setKey, hq, if_true] at hp
      rcases List.mem_cons.mp hp with h | h
      · exact Or.inl h
      · rcases ih h with h1 | h1
        · exact Or.inl h1
        · exact Or.inr (List.mem_cons_of_mem _ h1)
    · simp only [setKey, hq, if_false] at hp
      rcases List.mem_cons.mp hp with h | h
      · exact Or.inr (h ▸ List.mem_cons_self _ _)
      · rcases ih h with h1 | h1
        · exact Or.inl h1
        · exact Or.inr (List.mem_cons_of_mem _ h1)

theorem mem_dictInsert {α : Type} (m : List (String × α)) (k : String) (v : α) (p : String × α)
    (hp : p ∈ dictInsert m k v) : p = (k, v) ∨ p ∈ m := by
  unfold dictInsert at hp
  by_cases h : hasKey m k
  · simp only [h, if_true] at hp
    exact mem_setKey m k v p hp
  · simp only [h, if_false, Bool.false_eq_true, ite_false] at hp
    rcases List.mem_append.mp hp with h1 | h1
    · exact Or.inr h1
    · simp at h1
      exact Or.inl h1

/-! ## Substring and regex primitives -/

/-- Scan for the first occurrence of `pat` as a contiguous sublist and return
what follows it; `none` when there is no occurrence.  (Model of the leftmost
match of a literal regex pattern under `re.search`; `pat` is nonempty at every
use site.) -/
def splitAfterSubstr (pat : List Char) : List Char → Option (List Char)
  | [] => none
  | c :: cs =>
    if pat.isPrefixOf (c :: cs) then some ((c :: cs).drop pat.length)
    else splitAfterSubstr pat cs

/-- Python `pat in s` for a nonempty literal `pat`. -/
def containsSubstr (s pat : String) : Bool :=
  (splitAfterSubstr pat.data s.data).isSome

/-- Python `s.replace(pat, '')` for a nonempty literal `pat`: delete every
(leftmost-first, non-overlapping) occurrence. -/
def removeAllSub (pat : List Char) : List Char → List Char
  | [] => []
  | c :: cs =>
    if h : pat ≠ [] ∧ pat.isPrefixOf (c :: cs) then
      removeAllSub pat ((c :: cs).drop pat.length)
    else
      c :: removeAllSub pat cs
termination_by l => l.length
decreasing_by
  · simp only [List.length_drop, List.length_cons]
    have hpat : 0 < pat.length := List.length_pos.mpr h.1
    omega
  · simp only [List.length_cons]
    omega

/-- Python `s.replace('\n', ' ')` (single-character pattern, so a plain map). -/
def pyReplaceNlSpace (s : String) : String :=
  String.mk (s.data.map (fun c => if c = '\n' then ' ' else c))

/-- Python `s.removesuffix(':')`: drop at most one trailing colon. -/
def removeSuffixColon (s : String) : String :=
  match s.data.reverse with
  | ':' :: r => String.mk r.reverse
  | _ => s

/-- `re.sub(r'[^\d]', '', s)`: keep only the decimal digits. -/
def stripNonDigits (s : String) : String :=
  String.mk (s.data.filter Char.isDigit)

/-- Python `int(s)` on a nonempty string of decimal digits. -/
def pyInt (s : String) : Nat :=
  s.data.foldl (fun n c => 10 * n + (c.toNat - 48)) 0

/-- Capture group of `re.search(r'Exp\. release (.*)', s)`: the text after the
first occurrence of the literal `"Exp. release "`, up to (not including) the
next newline — `.` does not match `'\n'` and `.*` is greedy. -/
def expReleaseCapture (s : String) : Option String :=
  (splitAfterSubstr ("Exp. release ".data) s.data).map
    (fun rest => String.mk (rest.takeWhile (fun c => c ≠ '\n')))

/-! ## Group-title cleaning (`re.sub(r'\s+[^\w\s]+$', '', title).strip()`)

The pattern is anchored: a match is a nonempty whitespace run followed by a
nonempty run of `[^\w\s]` characters ending at the end of the string, or — by
Python `$` semantics — just before a single final newline (`$` cannot match at
the very end in that case, because the final `'\n'` is whitespace, not
`[^\w\s]`).  Greedy matching with this anchor means the symbol run is exactly
the maximal trailing `[^\w\s]` run and, for the leftmost match, the whitespace
run is the maximal run preceding it.  After one match the remainder is empty
or a single newline, in which no further match fits, so `re.sub` performs at
most one replacement.  We model it on the reversed character list. -/

/-- One anchored match step on the reversed character list (any final newline
already peeled off): if a nonempty `[^\w\s]` run is immediately followed (in
reversed order) by a nonempty whitespace run, drop both; otherwise leave the
list unchanged. -/
def pySubCore (r : List Char) : List Char :=
  let syms := r.takeWhile isSymChar
  let rest := r.dropWhile isSymChar
  let ws := rest.takeWhile isPyWs
  if syms.isEmpty || ws.isEmpty then r else rest.dropWhile isPyWs

/-- `re.sub(r'\s+[^\w\s]+$', '', s)` on the reversed character list: a single
final newline survives the substitution (the match ends just before it). -/
def pySubRev : List Char → List Char
  | [] => pySubCore []
  | c :: rest => if c = '\n' then '\n' :: pySubCore rest else pySubCore (c :: rest)

/-- `re.sub(r'\s+[^\w\s]+$', '', s)`. -/
def pySubTrailingSymRun (s : String) : String :=
  String.mk ((pySubRev s.data.reverse).reverse)

/-- `clean_title = re.sub(r'\s+[^\w\s]+$', '', group_title_raw).strip()`
(src/test_code.py line 152). -/
def clean_group_title (s : String) : String :=
  pyStrip (pySubTrailingSymRun s)

/-- The cleaning rule exactly as the claim words it: remove the maximal
trailing run of non-word, non-whitespace characters, then trim whitespace.
(Stated for comparison with `clean_group_title`, which additionally requires
the trailing symbol run to be preceded by whitespace.) -/
def claimClean (s : String) : String :=
  pyStrip (String.mk (s.data.reverse.dropWhile isSymChar).reverse)

/-- Drop a single leading newline (on the reversed list: a single final
newline of the original string). -/
def dropLeadNl : List Char → List Char
  | [] => []
  | c :: rest => if c = '\n' then rest else c :: rest

/-- Decides whether `s` ends (apart from an optional single final newline) in
a nonempty `[^\w\s]` run immediately preceded by a nonempty whitespace run,
i.e. whether the anchored pattern `\s+[^\w\s]+$` matches somewhere in `s`. -/
def hasTrailingWsSymRun (s : String) : Bool :=
  let r := dropLeadNl s.data.reverse
  !(r.takeWhile isSymChar).isEmpty && !((r.dropWhile isSymChar).takeWhile isPyWs).isEmpty

/-! ## The Normalizer: `format_scraped_data` (src/test_code.py lines 107-132) -/

/-- The raw record assembled by `scrape_product_details`: loosely-typed scalar
fields (each may be absent in an arbitrary input dictionary), the nested
`price.amount` string, and the ordered spec groups (`"Launch"` is one of
them), each a string-to-string dictionary. -/
structure RawRecord where
  title : Option String
  brand : Option String
  category : Option String
  added_on : Option String
  status : Option String
  image_url : Option String
  /-- `raw_data.get("price", {}).get("amount", ...)`: the raw amount string. -/
  priceAmount : Option String
  /-- Spec groups in insertion order; values are attribute dictionaries. -/
  groups : List (String × List (String × String))
deriving DecidableEq, Repr

/-- A value in the canonical output dictionary. -/
inductive CVal where
  | s (v : String)
  | price (local_currency : String) (amount : Nat) (note : String)
  | grp (m : List (String × String))
deriving DecidableEq, Repr

/-- The canonical-group remap table, in the insertion order of the `mapping`
dictionary in `format_scraped_data` (src/test_code.py lines 123-125). -/
def canonicalMapping : List (String × List String) :=
  [("Camera", ["Main camera", "Selfie camera"]), ("Design", ["Body"]),
   ("Battery", ["Battery"]), ("Display", ["Display"]), ("Cellular", ["Network"]),
   ("Hardware", ["Platform", "Memory"]), ("Multimedia", ["Sound"]),
   ("Connectivity & Features", ["Connectivity", "Features"])]

/-- The inner loop `for key, value in raw_data[old_group].items():
formatted[new_group][f"{key}:"] = value`. -/
def mergeGroupEntries (acc : List (String × String)) (entries : List (String × String)) :
    List (String × String) :=
  entries.foldl (fun a kv => dictInsert a (kv.fst ++ ":") kv.snd) acc

/-- `formatted[new_group] = {}` followed by the merge of the listed raw
groups, in order, skipping absent ones. -/
def buildCanonGroup (raw : RawRecord) (olds : List String) : List (String × String) :=
  olds.foldl (fun acc old =>
    match assocLookup raw.groups old with
    | none => acc
    | some entries => mergeGroupEntries acc entries) []

/-- `int(re.sub(r'[^\d]', '', s)) if re.sub(r'[^\d]', '', s) else 0`. -/
def priceAmountOf (rawAmount : String) : Nat :=
  let digits := stripNonDigits rawAmount
  if digits = "" then 0 else pyInt digits

/-- `format_scraped_data` (src/test_code.py lines 107-132), returning the
canonical dictionary in its Python insertion order. -/
def format_scraped_data (raw : RawRecord) : List (String × CVal) :=
  let launch := (assocLookup raw.groups "Launch").getD []
  let announced := (assocLookup launch "Announced").getD "N/A"
  let statusString := (assocLookup launch "Status").getD ""
  let expected :=
    match expReleaseCapture statusString with
    | some cap => pyStrip cap
    | none => announced
  let amount := priceAmountOf (raw.priceAmount.getD "0")
  [("title", CVal.s (raw.title.getD "N/A")),
   ("brand", CVal.s (raw.brand.getD "N/A")),
   ("category", CVal.s (raw.category.getD "N/A")),
   ("added_on", CVal.s (raw.added_on.getD "N/A")),
   ("status", CVal.s (raw.status.getD "N/A")),
   ("announced_date", CVal.s announced),
   ("expected_release", CVal.s expected),
   ("price", CVal.price "BDT" amount (if amount > 0 then "official price" else ""))]
  ++ canonicalMapping.map (fun ng => (ng.fst, CVal.grp (buildCanonGroup raw ng.snd)))

/-- The everywhere-absent raw record (an input dictionary with no keys at
all). -/
def emptyRaw : RawRecord :=
  ⟨none, none, none, none, none, none, none, []⟩

/-! ## The Extractor: `scrape_product_details` (src/test_code.py lines 136-167)

The browser layer is abstracted into plain data: each locator text query
yields `some` inner text or `none` when the element is missing / text
extraction fails (`get_text_or_default` then substitutes its default). -/

/-- `get_text_or_default(locator)` with the default `None` used for spec-row
cells: the stripped inner text, or `none`. -/
def pyTextOrNone (t : Option String) : Option String :=
  t.map pyStrip

/-- `get_text_or_default(locator)` with the default `"Not available"` used
for scalar fields and group headings. -/
def textOrNotAvailable (t : Option String) : String :=
  match t with
  | some s => pyStrip s
  | none => "Not available"

/-- One `<tr>` of a spec-group table: the key cell text, the value cell text
(each `none` when the element is missing) and the value cell inner HTML. -/
structure RawRow where
  keyText : Option String
  valText : Option String
  valHtml : String
deriving DecidableEq, Repr

/-- One `div.aps-group` container: the `h3.aps-group-title` text (`none` when
extraction fails) and its table rows. -/
structure RawGroup where
  heading : Option String
  rows : List RawRow
deriving DecidableEq, Repr

/-- The body of the row loop (src/test_code.py lines 156-166): keep the row
only when both stripped texts are non-empty (Python truthiness); strip one
trailing colon from the key; force the value to `"No"`/`"Yes"` on a
cancel/check icon in the cell markup; store the stripped,
newline-collapsed value, overwriting any earlier row with the same key. -/
def processRow (acc : List (String × String)) (row : RawRow) : List (String × String) :=
  match pyTextOrNone row.keyText, pyTextOrNone row.valText with
  | some k, some v =>
    if k ≠ "" ∧ v ≠ "" then
      let cleanKey := removeSuffixColon (pyStrip k)
      let value :=
        if containsSubstr row.valHtml "aps-icon-cancel" then "No"
        else if containsSubstr row.valHtml "aps-icon-check" then "Yes"
        else v
      dictInsert acc cleanKey (pyReplaceNlSpace (pyStrip value))
    else acc
  | _, _ => acc

/-- All rows of one group, starting from the fresh `raw_data[clean_title] = {}`. -/
def processRows (rows : List RawRow) : List (String × String) :=
  rows.foldl processRow []

/-- The group loop (src/test_code.py lines 150-166): clean each heading, skip
groups whose cleaned title is empty, and store each kept group under its
cleaned title (a repeated title is reset to `{}` and refilled, so the last
group with a given title wins). -/
def scrapeGroups (groups : List RawGroup) (acc : List (String × List (String × String))) :
    List (String × List (String × String)) :=
  groups.foldl (fun rd gr =>
    let cleanTitle := clean_group_title (textOrNotAvailable gr.heading)
    if cleanTitle = "" then rd else dictInsert rd cleanTitle (processRows gr.rows)) acc

/-- The fetched detail page, reduced to the queries the Extractor performs. -/
structure PageData where
  imageSrc : Option String
  titleText : Option String
  brandText : Option String
  categoryText : Option String
  addedOnText : Option String
  priceText : Option String
  statusText : Option String
  specGroups : List RawGroup
deriving DecidableEq, Repr

/-- `scrape_product_details` after the page has loaded (src/test_code.py
lines 139-167).  In Python all fields live in one dictionary; here the scalar
fields and the spec groups are kept apart (a markup group whose cleaned title
collides with a scalar key is outside this model). -/
def scrape_product_details (p : PageData) : RawRecord where
  image_url := p.imageSrc
  title := some (textOrNotAvailable p.titleText)
  brand := some (textOrNotAvailable p.brandText)
  category := some (textOrNotAvailable p.categoryText)
  added_on := some (pyStrip (String.mk (removeAllSub "Added on:".data
    (textOrNotAvailable p.addedOnText).data)))
  priceAmount := some (textOrNotAvailable p.priceText)
  status := some (textOrNotAvailable p.statusText)
  groups := scrapeGroups p.specGroups []

/-! ## The Ledger and the Diff Engine (src/test_code.py lines 71-92, 217-221) -/

/-- `load_processed_links()`: `none` models a missing CSV file; otherwise the
parsed rows.  The header row is skipped (an empty file yields the empty set
via the `StopIteration` handler) and the second column of every row with more
than one field is collected. -/
def load_processed_links (file : Option (List (List String))) : List String :=
  match file with
  | none => []
  | some [] => []
  | some (_header :: rows) =>
    (rows.filter (fun r => 1 < r.length)).filterMap (fun r => r.get? 1)

/-- Helper for `dedupKeepFirst`: keep each element not seen before. -/
def dedupAux : List String → List String → List String
  | [], _ => []
  | x :: xs, seen => if x ∈ seen then dedupAux xs seen else x :: dedupAux xs (x :: seen)

/-- Deduplication performed by building a Python `set`.  CPython iterates a
`str` set in hash-table order, which depends on the per-process randomized
hash seed, so across two interpreter runs the order of `list(s)` is NOT a
function of the inserted elements; a Lean list must nevertheless fix some
order, and this model fixes first-insertion order as one admissible
materialization.  Only membership, distinctness and length of the result —
which are genuine properties of the Python set — are relied upon anywhere in
this development; no theorem below asserts anything about the order this
representative fixes. -/
def dedupKeepFirst (l : List String) : List String := dedupAux l []

/-- `all_links = {await el.get_attribute('href') for el in link_elements if
await el.get_attribute('href')}` (src/test_code.py line 219): the set of
non-`None`, non-empty hrefs (order caveat as in `dedupKeepFirst`). -/
def harvestLinks (hrefs : List (Option String)) : List String :=
  dedupKeepFirst ((hrefs.filterMap id).filter (fun h => h ≠ ""))

/-- `new_links = list(all_links - processed_links)` (src/test_code.py line
221): the harvested links that are not in the ledger set, membership by
string equality (order caveat as in `dedupKeepFirst`). -/
def newLinksOf (allLinks processed : List String) : List String :=
  allLinks.filter (fun l => decide (l ∉ processed))

/-! ## The Orchestrator: the per-item loop of `run` (src/test_code.py
lines 231-262)

The three effectful steps that can raise inside the per-item `try` are
abstracted as `Except`-valued functions; `download_and_resize_image` and
`send_telegram_notification` catch all their exceptions internally and so
cannot raise.  `format_scraped_data` is a total pure function. -/

/-- `re.sub(r'[\\/*?:"<>|]', "", name)`. -/
def sanitize_filename (name : String) : String :=
  String.mk (name.data.filter (fun c =>
    !(List.contains ['\\', '/', '*', '?', ':', '"', '<', '>', '|'] c)))

/-- `final_details.get('title', 'unknown_product')`; `format_scraped_data`
always stores a string title, any other shape falls back to the default. -/
def canonTitle (fd : List (String × CVal)) : String :=
  match assocLookup fd "title" with
  | some (CVal.s t) => t
  | _ => "unknown_product"

/-- The observable effects of one loop iteration, in program order. -/
inductive Event where
  | imageDownload (url : Option String) (path : String)
  | jsonWritten (path : String)
  | ledgerAppended (link name : String)
  | notified (name link : String)
  | failureReported (link : String)
deriving DecidableEq, Repr

/-- The effectful collaborators of the loop body, each either returning or
raising (`Except.error`). -/
structure Env where
  scrape : String → Except String RawRecord
  writeJson : String → List (String × CVal) → Except String Unit
  saveLink : String → String → Except String Unit

/-- The outcome of one iteration: the link it handled, its effect trace, and
whether it reached the success path. -/
structure ItemResult where
  link : String
  events : List Event
  succeeded : Bool
deriving DecidableEq, Repr

/-- `os.path.join(JSON_OUTPUT_FOLDER, base_filename + '.json')`. -/
def jsonPathOf (raw : RawRecord) : String :=
  "mobiles/" ++ sanitize_filename (canonTitle (format_scraped_data raw)) ++ ".json"

/-- `os.path.join(IMAGE_OUTPUT_FOLDER, base_filename + '.jpg')`. -/
def imagePathOf (raw : RawRecord) : String :=
  "images/" ++ sanitize_filename (canonTitle (format_scraped_data raw)) ++ ".jpg"

/-- One iteration of the `for i, link in enumerate(new_links)` loop
(src/test_code.py lines 231-262): scrape, normalize, download the image
(never raises), write the JSON artifact, append the ledger, notify (never
raises); any exception from the fallible steps is caught by the per-item
`except` and reported. -/
def processItem (env : Env) (link : String) : ItemResult :=
  match env.scrape link with
  | Except.error _ => ⟨link, [Event.failureReported link], false⟩
  | Except.ok raw =>
    let fd := format_scraped_data raw
    let name := canonTitle fd
    let evs0 := [Event.imageDownload raw.image_url (imagePathOf raw)]
    match env.writeJson (jsonPathOf raw) fd with
    | Except.error _ => ⟨link, evs0 ++ [Event.failureReported link], false⟩
    | Except.ok _ =>
      match env.saveLink link name with
      | Except.error _ =>
        ⟨link, evs0 ++ [Event.jsonWritten (jsonPathOf raw), Event.failureReported link], false⟩
      | Except.ok _ =>
        ⟨link, evs0 ++ [Event.jsonWritten (jsonPathOf raw),
          Event.ledgerAppended link name, Event.notified name link], true⟩

/-- The whole item loop: one `ItemResult` per diffed link, in order. -/
def runLoop (env : Env) (links : List String) : List ItemResult :=
  links.map (processItem env)

/-- The ways one iteration can fail: `scrape_product_details` raises, the
JSON write raises, or `save_processed_link` raises. -/
def itemFails (env : Env) (l : String) : Prop :=
  (∃ e, env.scrape l = Except.error e) ∨
  (∃ raw e, env.scrape l = Except.ok raw ∧
    env.writeJson (jsonPathOf raw) (format_scraped_data raw) = Except.error e) ∨
  (∃ raw e, env.scrape l = Except.ok raw ∧
    env.writeJson (jsonPathOf raw) (format_scraped_data raw) = Except.ok () ∧
    env.saveLink l (canonTitle (format_scraped_data raw)) = Except.error e)

/-- Number of `ledgerAppended` events in a trace. -/
def countLedgerAppends (evs : List Event) : Nat :=
  evs.countP (fun e =>
    match e with
    | Event.ledgerAppended _ _ => true
    | _ => false)

/-! # The claims -/

/-- C10: for every input RawRecord whatsoever, the CanonicalRecord returned
by `format_scraped_data` has exactly the same sixteen top-level keys in the
same fixed insertion order — title, brand, category, added_on, status,
announced_date, expected_release, price, Camera, Design, Battery, Display,
Cellular, Hardware, Multimedia, "Connectivity & Features" — independent of
which keys the input contains; in particular `image_url` (and hence any
unmapped raw group, since the key list is exhaustive) never appears in the
output. -/
theorem C10_fixed_output_shape (raw : RawRecord) :
    (format_scraped_data raw).map Prod.fst =
      ["title", "brand", "category", "added_on", "status", "announced_date",
       "expected_release", "price", "Camera", "Design", "Battery", "Display",
       "Cellular", "Hardware", "Multimedia", "Connectivity & Features"] ∧
    assocLookup (format_scraped_data raw) "image_url" = none := by
  constructor
  · simp [format_scraped_data, canonicalMapping]
  · simp [format_scraped_data, canonicalMapping, assocLookup]

/-- C2: for every RawRecord, the canonical price field equals
`{local_currency: "BDT", amount: n, note: s}` where `n` is the integer
obtained by stripping every non-digit character from the raw price amount
string (defaulted to `"0"` when absent) and parsing the remainder, `n = 0`
when the stripped remainder is empty, and `s = "official price"` iff
`n > 0`; in particular amount `"1200"` yields `1200`, `"BDT 1,200"` yields
`1200`, and `""` or an absent amount yields `0` with note `""`. -/
theorem C2_price_normalization (raw : RawRecord) :
    assocLookup (format_scraped_data raw) "price" =
      some (CVal.price "BDT" (priceAmountOf (raw.priceAmount.getD "0"))
        (if 0 < priceAmountOf (raw.priceAmount.getD "0") then "official price" else "")) ∧
    (∀ s, stripNonDigits s = "" → priceAmountOf s = 0) ∧
    priceAmountOf "1200" = 1200 ∧
    priceAmountOf "BDT 1,200" = 1200 ∧
    priceAmountOf "" = 0 ∧
    (raw.priceAmount = none →
      assocLookup (format_scraped_data raw) "price" = some (CVal.price "BDT" 0 "")) ∧
    (raw.priceAmount = some "" →
      assocLookup (format_scraped_data raw) "price" = some (CVal.price "BDT" 0 "")) := by
  refine ⟨?_, ?_, by decide, by decide, by decide, ?_, ?_⟩
  · simp [format_scraped_data, assocLookup]
  · intro s hs
    simp [priceAmountOf, hs]
  · intro h
    simp [format_scraped_data, assocLookup, h]
    decide
  · intro h
    simp [format_scraped_data, assocLookup, h]
    decide

/-- C2 witness: the price characterization applied to the empty raw record
(absent amount) evaluates to amount `0`, note `""`. -/
theorem C2_witness :
    assocLookup (format_scraped_data emptyRaw) "price" = some (CVal.price "BDT" 0 "") :=
  (C2_price_normalization emptyRaw).2.2.2.2.2.1 rfl

/-- C3: for every RawRecord, `announced_date` is the raw `Launch.Announced`
value (default `"N/A"`), and `expected_release` is the stripped capture of
the pattern `Exp. release (.*)` against `Launch.Status` when it matches, and
equals `announced_date` otherwise (also when `Launch` or `Launch.Status` is
absent, in which case the status string defaults to `""`). -/
theorem C3_expected_release (raw : RawRecord) :
    ∃ a e, assocLookup (format_scraped_data raw) "announced_date" = some (CVal.s a) ∧
      assocLookup (format_scraped_data raw) "expected_release" = some (CVal.s e) ∧
      a = (assocLookup ((assocLookup raw.groups "Launch").getD []) "Announced").getD "N/A" ∧
      e = (match expReleaseCapture
          ((assocLookup ((assocLookup raw.groups "Launch").getD []) "Status").getD "") with
        | some cap => pyStrip cap
        | none => a) := by
  refine ⟨_, _, ?_, ?_, rfl, rfl⟩
  · simp [format_scraped_data, assocLookup]
  · simp [format_scraped_data, assocLookup]

/-- C4: the Normalizer is total — it is a Lean function defined on every
`RawRecord`, including the one with no keys at all — and every missing
optional field resolves to its documented default: `"N/A"` for the scalar
fields and `announced_date` (and hence `expected_release`), amount `0` with
note `""` for the price, and the empty mapping for a canonical group none of
whose source groups is present. -/
theorem C4_normalizer_total_defaults (raw : RawRecord) :
    (format_scraped_data raw).length = 16 ∧
    (raw.title = none →
      assocLookup (format_scraped_data raw) "title" = some (CVal.s "N/A")) ∧
    (raw.brand = none →
      assocLookup (format_scraped_data raw) "brand" = some (CVal.s "N/A")) ∧
    (raw.category = none →
      assocLookup (format_scraped_data raw) "category" = some (CVal.s "N/A")) ∧
    (raw.added_on = none →
      assocLookup (format_scraped_data raw) "added_on" = some (CVal.s "N/A")) ∧
    (raw.status = none →
      assocLookup (format_scraped_data raw) "status" = some (CVal.s "N/A")) ∧
    (assocLookup raw.groups "Launch" = none →
      assocLookup (format_scraped_data raw) "announced_date" = some (CVal.s "N/A") ∧
      assocLookup (format_scraped_data raw) "expected_release" = some (CVal.s "N/A")) ∧
    (raw.priceAmount = none →
      assocLookup (format_scraped_data raw) "price" = some (CVal.price "BDT" 0 "")) ∧
    (∀ name olds, (name, olds) ∈ canonicalMapping →
      (∀ old ∈ olds, assocLookup raw.groups old = none) →
      assocLookup (format_scraped_data raw) name = some (CVal.grp [])) := by
  refine ⟨?_, ?_, ?_, ?_, ?_, ?_, ?_, ?_, ?_⟩
  · simp [format_scraped_data, canonicalMapping]
  · intro h; simp [format_scraped_data, assocLookup, h]
  · intro h; simp [format_scraped_data, assocLookup, h]
  · intro h; simp [format_scraped_data, assocLookup, h]
  · intro h; simp [format_scraped_data, assocLookup, h]
  · intro h; simp [format_scraped_data, assocLookup, h]
  · intro h
    constructor
    · simp [format_scraped_data, assocLookup, h]
    · simp [format_scraped_data, assocLookup, h, expReleaseCapture, splitAfterSubstr]
  · intro h
    simp [format_scraped_data, assocLookup, h]
    decide
  · intro name olds hmem habs
    have hbuild : buildCanonGroup raw olds = [] := by
      clear hmem
      induction olds with
      | nil => rfl
      | cons o os ih =>
        have ho := habs o (List.mem_cons_self _ _)
        have hos : ∀ old ∈ os, assocLookup raw.groups old = none :=
          fun old hmo => habs old (List.mem_cons_of_mem _ hmo)
        simpa [buildCanonGroup, ho] using ih hos
    fin_cases hmem <;> simp_all [format_scraped_data, assocLookup, canonicalMapping]

/-- C4 witness: on the raw record with no keys at all, every documented
default is produced. -/
theorem C4_witness :
    assocLookup (format_scraped_data emptyRaw) "title" = some (CVal.s "N/A") ∧
    assocLookup (format_scraped_data emptyRaw) "announced_date" = some (CVal.s "N/A") ∧
    assocLookup (format_scraped_data emptyRaw) "price" = some (CVal.price "BDT" 0 "") ∧
    assocLookup (format_scraped_data emptyRaw) "Camera" = some (CVal.grp []) := by
  have h := C4_normalizer_total_defaults emptyRaw
  refine ⟨h.2.1 rfl, (h.2.2.2.2.2.2.1 rfl).1, h.2.2.2.2.2.2.2.1 rfl, ?_⟩
  exact h.2.2.2.2.2.2.2.2 "Camera" ["Main camera", "Selfie camera"] (by decide)
    (fun old _ => rfl)

/-- C9: for every spec-table row kept by the Extractor (both stripped cell
texts non-empty), the stored value is `"No"` when the value cell markup
contains the cancel indicator, `"Yes"` when it contains the check indicator
(and no cancel indicator), and otherwise the stripped cell text with every
newline replaced by a space; the row is stored under its key with exactly one
trailing colon removed, and the insertion overwrites any earlier row with the
same cleaned key (the lookup result does not depend on the accumulated
dictionary). -/
theorem C9_cell_canonicalization (acc : List (String × String)) (row : RawRow) (k v : String)
    (hk : pyTextOrNone row.keyText = some k) (hv : pyTextOrNone row.valText = some v)
    (hk0 : k ≠ "") (hv0 : v ≠ "") :
    (containsSubstr row.valHtml "aps-icon-cancel" = true →
      assocLookup (processRow acc row) (removeSuffixColon (pyStrip k)) = some "No") ∧
    (containsSubstr row.valHtml "aps-icon-cancel" = false →
      containsSubstr row.valHtml "aps-icon-check" = true →
      assocLookup (processRow acc row) (removeSuffixColon (pyStrip k)) = some "Yes") ∧
    (containsSubstr row.valHtml "aps-icon-cancel" = false →
      containsSubstr row.valHtml "aps-icon-check" = false →
      assocLookup (processRow acc row) (removeSuffixColon (pyStrip k)) =
        some (pyReplaceNlSpace (pyStrip v))) := by
  refine ⟨?_, ?_, ?_⟩
  · intro hc
    simp only [processRow, hk, hv, hk0, hv0, ne_eq, not_false_iff, and_self, if_true, hc]
    rw [assocLookup_dictInsert, if_pos rfl]
    decide
  · intro hc hch
    simp only [processRow, hk, hv, hk0, hv0, ne_eq, not_false_iff, and_self, if_true, hc, hch]
    rw [assocLookup_dictInsert, if_pos rfl]
    decide
  · intro hc hch
    simp only [processRow, hk, hv, hk0, hv0, ne_eq, not_false_iff, and_self, if_true, hc, hch]
    rw [assocLookup_dictInsert, if_pos rfl]
    simp

/-- C9 witness: a plain-text cell with an internal newline is stored trimmed
and newline-collapsed under its colon-stripped key. -/
theorem C9_witness :
    assocLookup (processRow [("Chipset", "old")]
        ⟨some "Chipset:", some "Snapdragon 8\nGen 2", "<td>Snapdragon 8\nGen 2</td>"⟩)
      "Chipset" = some "Snapdragon 8 Gen 2" := by
  have h := C9_cell_canonicalization [("Chipset", "old")]
    ⟨some "Chipset:", some "Snapdragon 8\nGen 2", "<td>Snapdragon 8\nGen 2</td>"⟩
    "Chipset:" "Snapdragon 8\nGen 2" (by decide) (by decide) (by decide) (by decide)
  have h3 := h.2.2 (by decide) (by decide)
  exact h3.trans (by decide)

theorem mem_dedupAux (a : String) (l seen : List String) :
    a ∈ dedupAux l seen ↔ (a ∈ l ∧ a ∉ seen) := by
  induction l generalizing seen with
  | nil => simp [dedupAux]
  | cons x xs ih =>
    by_cases hx : x ∈ seen
    · simp only [dedupAux, hx, if_true, ih]
      constructor
      · exact fun h => ⟨List.mem_cons_of_mem _ h.1, h.2⟩
      · rintro ⟨h1, h2⟩
        rcases List.mem_cons.mp h1 with h3 | h3
        · exact absurd (h3 ▸ hx) h2
        · exact ⟨h3, h2⟩
    · simp only [dedupAux, hx, if_false]
      constructor
      · intro h
        rcases List.mem_cons.mp h with h1 | h1
        · exact ⟨h1 ▸ List.mem_cons_self _ _, h1 ▸ hx⟩
        · have := (ih (x :: seen)).mp h1
          exact ⟨List.mem_cons_of_mem _ this.1,
            fun hc => this.2 (List.mem_cons_of_mem _ hc)⟩
      · rintro ⟨h1, h2⟩
        by_cases hax : a = x
        · exact hax ▸ List.mem_cons_self _ _
        · rcases List.mem_cons.mp h1 with h3 | h3
          · exact absurd h3 hax
          · exact List.mem_cons_of_mem _ ((ih (x :: seen)).mpr
              ⟨h3, by simp [hax, h2]⟩)

theorem nodup_dedupAux (l seen : List String) : (dedupAux l seen).Nodup := by
  induction l generalizing seen with
  | nil => simp [dedupAux]
  | cons x xs ih =>
    by_cases hx : x ∈ seen
    · simpa [dedupAux, hx] using ih seen
    · simp only [dedupAux, hx, if_false]
      refine List.nodup_cons.mpr ⟨?_, ih (x :: seen)⟩
      intro hmem
      exact ((mem_dedupAux _ _ _).mp hmem).2 (List.mem_cons_self _ _)

theorem nodup_dedupKeepFirst (l : List String) : (dedupKeepFirst l).Nodup :=
  nodup_dedupAux l []

/-- C5, evaluated at the failing input (see RESULTS): with harvested links
`{A, B, C}` and ledger `{B}`, the new-work queue holds `A` and `C`, does not
hold `B`, and has exactly two elements, and after marking `C` processed the
queue is the single link `A` — the set-level behavior the claim describes.
Only membership, counts and lengths are stated: the claim's further assertion
that two runs produce the queue in the same ORDER is not a property of the
code, because `list(all_links - processed_links)` iterates a CPython `str`
set in an order that depends on the per-process randomized hash seed, which
lies outside this embedding (see `dedupKeepFirst`). -/
theorem C5_failing_input_eval :
    "A" ∈ newLinksOf (harvestLinks [some "A", some "B", some "C"])
      (load_processed_links (some [["mobile_name", "processed_url"], ["b", "B"]])) ∧
    "C" ∈ newLinksOf (harvestLinks [some "A", some "B", some "C"])
      (load_processed_links (some [["mobile_name", "processed_url"], ["b", "B"]])) ∧
    (newLinksOf (harvestLinks [some "A", some "B", some "C"])
      (load_processed_links (some [["mobile_name", "processed_url"], ["b", "B"]]))).count
      "B" = 0 ∧
    (newLinksOf (harvestLinks [some "A", some "B", some "C"])
      (load_processed_links (some [["mobile_name", "processed_url"], ["b", "B"]]))).length
      = 2 ∧
    newLinksOf (harvestLinks [some "A", some "B", some "C"])
      (load_processed_links (some [["mobile_name", "processed_url"], ["b", "B"]]) ++ ["C"])
      = ["A"] := by
  refine ⟨by decide, by decide, by decide, by decide, by decide⟩

theorem processItem_scrape_err (env : Env) (l e : String)
    (hs : env.scrape l = Except.error e) :
    processItem env l = ⟨l, [Event.failureReported l], false⟩ := by
  simp [processItem, hs]

theorem processItem_write_err (env : Env) (l e : String) (raw : RawRecord)
    (hs : env.scrape l = Except.ok raw)
    (hw : env.writeJson (jsonPathOf raw) (format_scraped_data raw) = Except.error e) :
    processItem env l = ⟨l, [Event.imageDownload raw.image_url (imagePathOf raw),
      Event.failureReported l], false⟩ := by
  simp [processItem, hs, hw]

theorem processItem_save_err (env : Env) (l e : String) (raw : RawRecord)
    (hs : env.scrape l = Except.ok raw)
    (hw : env.writeJson (jsonPathOf raw) (format_scraped_data raw) = Except.ok ())
    (hl : env.saveLink l (canonTitle (format_scraped_data raw)) = Except.error e) :
    processItem env l = ⟨l, [Event.imageDownload raw.image_url (imagePathOf raw),
      Event.jsonWritten (jsonPathOf raw), Event.failureReported l], false⟩ := by
  simp [processItem, hs, hw, hl]

theorem processItem_all_ok (env : Env) (l : String) (raw : RawRecord)
    (hs : env.scrape l = Except.ok raw)
    (hw : env.writeJson (jsonPathOf raw) (format_scraped_data raw) = Except.ok ())
    (hl : env.saveLink l (canonTitle (format_scraped_data raw)) = Except.ok ()) :
    processItem env l = ⟨l, [Event.imageDownload raw.image_url (imagePathOf raw),
      Event.jsonWritten (jsonPathOf raw),
      Event.ledgerAppended l (canonTitle (format_scraped_data raw)),
      Event.notified (canonTitle (format_scraped_data raw)) l], true⟩ := by
  simp [processItem, hs, hw, hl]

theorem processItem_link (env : Env) (l : String) : (processItem env l).link = l := by
  rcases hs : env.scrape l with e | raw
  · rw [processItem_scrape_err env l e hs]
  · rcases hw : env.writeJson (jsonPathOf raw) (format_scraped_data raw) with e | u
    · rw [processItem_write_err env l e raw hs hw]
    · rcases hl : env.saveLink l (canonTitle (format_scraped_data raw)) with e | u
      · rw [processItem_save_err env l e raw hs hw hl]
      · rw [processItem_all_ok env l raw hs hw hl]

/-- C6: in the Orchestrator per-item loop, an exception raised while
fetching/extracting (`scrape_product_details`), persisting the JSON artifact,
or appending the ledger (`save_processed_link`) for one link aborts only that
link's iteration: every diffed link still gets exactly one loop iteration (in
order), and the failing link's iteration does not succeed, appends nothing to
the ledger, and reports the failure. -/
theorem C6_item_failure_isolation (env : Env) (links : List String) (l : String)
    (hmem : l ∈ links) (hfail : itemFails env l) :
    ((runLoop env links).map ItemResult.link = links) ∧
    (∀ r ∈ runLoop env links, r.link = l →
      r.succeeded = false ∧
      (∀ lk nm, Event.ledgerAppended lk nm ∉ r.events) ∧
      Event.failureReported l ∈ r.events) := by
  constructor
  · clear hmem hfail
    induction links with
    | nil => rfl
    | cons a as ih =>
      simp only [runLoop, List.map_cons] at ih ⊢
      rw [processItem_link, ih]
  · intro r hr hlink
    obtain ⟨x, hx, rfl⟩ := List.mem_map.mp hr
    have hxl : x = l := by rw [← processItem_link env x, hlink]
    subst hxl
    rcases hfail with ⟨e, hs⟩ | ⟨raw, e, hs, hw⟩ | ⟨raw, e, hs, hw, hl⟩
    · rw [processItem_scrape_err env x e hs]
      simp
    · rw [processItem_write_err env x e raw hs hw]
      simp
    · rw [processItem_save_err env x e raw hs hw hl]
      simp

/-- C6 witness: with a scrape that raises on `"bad"` only, the loop handles
both links, reports and skips `"bad"` without a ledger append, and still
succeeds on `"good"`. -/
theorem C6_witness :
    (runLoop ⟨fun l => if l = "bad" then Except.error "timeout" else Except.ok emptyRaw,
        fun _ _ => Except.ok (), fun _ _ => Except.ok ()⟩ ["bad", "good"]).map
      ItemResult.link = ["bad", "good"] ∧
    (processItem ⟨fun l => if l = "bad" then Except.error "timeout" else Except.ok emptyRaw,
        fun _ _ => Except.ok (), fun _ _ => Except.ok ()⟩ "bad").succeeded = false ∧
    Event.failureReported "bad" ∈
      (processItem ⟨fun l => if l = "bad" then Except.error "timeout" else Except.ok emptyRaw,
        fun _ _ => Except.ok (), fun _ _ => Except.ok ()⟩ "bad").events := by
  have h := C6_item_failure_isolation
    ⟨fun l => if l = "bad" then Except.error "timeout" else Except.ok emptyRaw,
      fun _ _ => Except.ok (), fun _ _ => Except.ok ()⟩
    ["bad", "good"] "bad" (List.mem_cons_self _ _) (Or.inl ⟨"timeout", rfl⟩)
  have h2 := h.2 _ (List.mem_cons_self _ _) (processItem_link _ _)
  exact ⟨h.1, h2.1, h2.2.2⟩

/-- C7: in one loop iteration, the ledger append happens exactly once when
the iteration succeeds and never otherwise, and every `ledgerAppended` event
in the trace is strictly preceded by the `jsonWritten` event — so an item is
never marked processed before its JSON artifact is written, and an item whose
persistence step raises is never marked processed. -/
theorem C7_append_once_after_json (env : Env) (link : String) :
    ((processItem env link).succeeded = true →
      countLedgerAppends (processItem env link).events = 1) ∧
    ((processItem env link).succeeded = false →
      countLedgerAppends (processItem env link).events = 0) ∧
    (∀ i lk nm,
      (processItem env link).events.get? i = some (Event.ledgerAppended lk nm) →
      ∃ j, j < i ∧ ∃ p, (processItem env link).events.get? j = some (Event.jsonWritten p)) := by
  rcases hs : env.scrape link with e | raw
  · rw [processItem_scrape_err env link e hs]
    refine ⟨by simp, fun _ => by simp [countLedgerAppends], ?_⟩
    intro i lk nm h
    rcases i with _ | i <;> simp [List.get?] at h
  · rcases hw : env.writeJson (jsonPathOf raw) (format_scraped_data raw) with e | u
    · rw [processItem_write_err env link e raw hs hw]
      refine ⟨by simp, fun _ => by simp [countLedgerAppends], ?_⟩
      intro i lk nm h
      rcases i with _ | _ | i <;> simp [List.get?] at h
    · rcases hl : env.saveLink link (canonTitle (format_scraped_data raw)) with e | u
      · rw [processItem_save_err env link e raw hs hw hl]
        refine ⟨by simp, fun _ => by simp [countLedgerAppends], ?_⟩
        intro i lk nm h
        rcases i with _ | _ | _ | i <;> simp [List.get?] at h
      · rw [processItem_all_ok env link raw hs hw hl]
        refine ⟨fun _ => by simp [countLedgerAppends, List.countP_cons], by simp, ?_⟩
        intro i lk nm h
        rcases i with _ | _ | _ | _ | i <;> simp [List.get?] at h
        exact ⟨1, by omega, jsonPathOf raw, rfl⟩

/-- C7 witness: with all effects succeeding, the iteration appends the ledger
exactly once, and a `jsonWritten` event precedes the `ledgerAppended` event
(at index 2) in the trace. -/
theorem C7_witness :
    countLedgerAppends (processItem ⟨fun _ => Except.ok emptyRaw,
        fun _ _ => Except.ok (), fun _ _ => Except.ok ()⟩ "x").events = 1 ∧
    ∃ j, j < 2 ∧ ∃ p, (processItem ⟨fun _ => Except.ok emptyRaw,
        fun _ _ => Except.ok (), fun _ _ => Except.ok ()⟩ "x").events.get? j =
      some (Event.jsonWritten p) := by
  have h := C7_append_once_after_json
    ⟨fun _ => Except.ok emptyRaw, fun _ _ => Except.ok (), fun _ _ => Except.ok ()⟩ "x"
  exact ⟨h.1 (by decide), h.2.2 2 "x" "N/A" (by decide)⟩

/-- Last-occurrence lookup in an association list (what the merge loop's
overwriting asserts about duplicate keys). -/
def assocLookupLast {α : Type} : List (String × α) → String → Option α
  | [], _ => none
  | p :: rest, k =>
    match assocLookupLast rest k with
    | some v => some v
    | none => if p.fst = k then some p.snd else none

theorem assocLookup_mem {α : Type} (m : List (String × α)) (k : String) (v : α)
    (h : assocLookup m k = some v) : (k, v) ∈ m := by
  induction m with
  | nil => simp [assocLookup] at h
  | cons p rest ih =>
    by_cases hp : p.fst = k
    · simp only [assocLookup, hp, if_true, Option.some.injEq] at h
      have : (k, v) = p := by
        rw [← hp, ← h]
      exact this ▸ List.mem_cons_self _ _
    · simp only [assocLookup, hp, if_false] at h
      exact List.mem_cons_of_mem _ (ih h)

theorem mem_keys_of_assocLookupLast {α : Type} (m : List (String × α)) (k : String) (v : α)
    (h : assocLookupLast m k = some v) : k ∈ m.map Prod.fst := by
  induction m with
  | nil => simp [assocLookupLast] at h
  | cons p rest ih =>
    rcases hlast : assocLookupLast rest k with _ | w
    · simp only [assocLookupLast, hlast] at h
      by_cases hp : p.fst = k
      · simp [hp]
      · simp [hp] at h
    · simp only [assocLookupLast, hlast] at h
      exact List.mem_cons_of_mem _ (ih (by rw [hlast, h]))

theorem assocLookupLast_eq_assocLookup {α : Type} (m : List (String × α)) (k : String)
    (h : (m.map Prod.fst).Nodup) : assocLookupLast m k = assocLookup m k := by
  induction m with
  | nil => rfl
  | cons p rest ih =>
    rw [List.map_cons, List.nodup_cons] at h
    rcases hlast : assocLookupLast rest k with _ | w
    · simp only [assocLookupLast, hlast, assocLookup]
      by_cases hp : p.fst = k
      · simp [hp]
      · simp only [hp, if_false]
        rw [← ih h.2, hlast]
    · have hk : k ∈ rest.map Prod.fst := mem_keys_of_assocLookupLast rest k w hlast
      have hp : ¬ p.fst = k := fun hc => h.1 (hc ▸ hk)
      simp only [assocLookupLast, hlast, assocLookup, hp, if_false]
      rw [← ih h.2, hlast]

theorem assocLookup_mergeGroupEntries (acc es : List (String × String)) (k : String) :
    assocLookup (mergeGroupEntries acc es) (k ++ ":") =
      match assocLookupLast es k with
      | some v => some v
      | none => assocLookup acc (k ++ ":") := by
  induction es generalizing acc with
  | nil => rfl
  | cons e rest ih =>
    have hstep : mergeGroupEntries acc (e :: rest) =
        mergeGroupEntries (dictInsert acc (e.fst ++ ":") e.snd) rest := rfl
    rw [hstep, ih]
    rcases hlast : assocLookupLast rest k with _ | v
    · simp only [assocLookupLast, hlast]
      rw [assocLookup_dictInsert]
      by_cases hek : e.fst = k
      · simp [hek]
      · have hne : ¬ (k ++ ":" = e.fst ++ ":") := fun hc =>
          hek (string_append_colon_inj k e.fst hc).symm
        simp [hek, hne]
    · simp [assocLookupLast, hlast]

/-- The value the claim's collision rule assigns to raw key `k` of a merged
canonical group: scan the source raw groups in merge order and keep the value
of the last present group whose mapping contains `k`. -/
def lastContribution (raw : RawRecord) (olds : List String) (k : String) : Option String :=
  olds.foldl (fun o old =>
    match assocLookup raw.groups old with
    | none => o
    | some es =>
      match assocLookup es k with
      | none => o
      | some v => some v) none

theorem assocLookup_buildCanonGroup_aux (raw : RawRecord) (k : String) (olds : List String)
    (acc : List (String × String)) :
    assocLookup (olds.foldl (fun acc old =>
        match assocLookup raw.groups old with
        | none => acc
        | some entries => mergeGroupEntries acc entries) acc) (k ++ ":") =
      olds.foldl (fun o old =>
        match assocLookup raw.groups old with
        | none => o
        | some es =>
          match assocLookupLast es k with
          | none => o
          | some v => some v) (assocLookup acc (k ++ ":")) := by
  induction olds generalizing acc with
  | nil => rfl
  | cons old rest ih =>
    simp only [List.foldl_cons]
    rcases hg : assocLookup raw.groups old with _ | es
    · simp only [hg]
      exact ih acc
    · simp only [hg]
      rw [ih (mergeGroupEntries acc es), assocLookup_mergeGroupEntries]
      rcases hlast : assocLookupLast es k with _ | v <;> simp

theorem lastContribution_fold_eq (raw : RawRecord) (k : String)
    (hnd : ∀ g ∈ raw.groups, (g.snd.map Prod.fst).Nodup) (olds : List String)
    (o : Option String) :
    olds.foldl (fun o old =>
        match assocLookup raw.groups old with
        | none => o
        | some es =>
          match assocLookupLast es k with
          | none => o
          | some v => some v) o =
      olds.foldl (fun o old =>
        match assocLookup raw.groups old with
        | none => o
        | some es =>
          match assocLookup es k with
          | none => o
          | some v => some v) o := by
  induction olds generalizing o with
  | nil => rfl
  | cons old rest ih =>
    simp only [List.foldl_cons]
    rcases hg : assocLookup raw.groups old with _ | es
    · simp only [hg]
      exact ih o
    · have hmem : (old, es) ∈ raw.groups := assocLookup_mem _ _ _ hg
      have h1 : assocLookupLast es k = assocLookup es k :=
        assocLookupLast_eq_assocLookup es k (hnd (old, es) hmem)

      simp only [hg, h1]
      exact ih _

theorem mem_mergeGroupEntries (es acc : List (String × String)) (p : String × String)
    (hp : p ∈ mergeGroupEntries acc es) :
    p ∈ acc ∨ ∃ e ∈ es, p = (e.fst ++ ":", e.snd) := by
  induction es generalizing acc with
  | nil => exact Or.inl hp
  | cons e rest ih =>
    have hstep : mergeGroupEntries acc (e :: rest) =
        mergeGroupEntries (dictInsert acc (e.fst ++ ":") e.snd) rest := rfl
    rw [hstep] at hp
    rcases ih (dictInsert acc (e.fst ++ ":") e.snd) hp with h1 | ⟨e1, he1, hpe⟩
    · rcases mem_dictInsert _ _ _ _ h1 with h2 | h2
      · exact Or.inr ⟨e, List.mem_cons_self _ _, h2⟩
      · exact Or.inl h2
    · exact Or.inr ⟨e1, List.mem_cons_of_mem _ he1, hpe⟩

theorem mem_buildCanonGroup_aux (raw : RawRecord) (olds : List String)
    (acc : List (String × String)) (p : String × String)
    (hp : p ∈ olds.foldl (fun acc old =>
        match assocLookup raw.groups old with
        | none => acc
        | some entries => mergeGroupEntries acc entries) acc) :
    p ∈ acc ∨ ∃ k0, p.fst = k0 ++ ":" := by
  induction olds generalizing acc with
  | nil => exact Or.inl hp
  | cons old rest ih =>
    simp only [List.foldl_cons] at hp
    rcases hg : assocLookup raw.groups old with _ | es
    · rw [hg] at hp
      exact ih acc hp
    · rw [hg] at hp
      rcases ih (mergeGroupEntries acc es) hp with h1 | h1
      · rcases mem_mergeGroupEntries es acc p h1 with h2 | ⟨e, _, hpe⟩
        · exact Or.inl h2
        · exact Or.inr ⟨e.fst, by rw [hpe]⟩
      · exact Or.inr h1

/-- C1: for every RawRecord whose raw group mappings have no duplicate keys
(as Python dictionaries always do), `format_scraped_data` builds each of the
eight canonical groups of `canonicalMapping` (Camera, Design, Battery,
Display, Cellular, Hardware, Multimedia, "Connectivity & Features") by
merging its listed raw source groups in order: the merged group is present in
the output, its entry at `k ++ ":"` is the value of the last contributing raw
group containing `k` (absent raw groups contribute nothing, and identical
keys across merged source groups are overwritten by the last contributor),
every key of the merged group is a raw key with a trailing colon appended,
and a canonical group with no contributing raw group is the (present) empty
mapping. -/
theorem C1_canonical_group_merge (raw : RawRecord)
    (hnd : ∀ g ∈ raw.groups, (g.snd.map Prod.fst).Nodup) :
    ∀ name olds, (name, olds) ∈ canonicalMapping →
      assocLookup (format_scraped_data raw) name =
        some (CVal.grp (buildCanonGroup raw olds)) ∧
      (∀ k, assocLookup (buildCanonGroup raw olds) (k ++ ":") =
        lastContribution raw olds k) ∧
      ((∀ old ∈ olds, assocLookup raw.groups old = none) →
        buildCanonGroup raw olds = []) ∧
      (∀ p ∈ buildCanonGroup raw olds, ∃ k0, p.fst = k0 ++ ":") := by
  intro name olds hmem
  refine ⟨?_, ?_, ?_, ?_⟩
  · fin_cases hmem <;> simp [format_scraped_data, canonicalMapping, assocLookup]
  · intro k
    have h := assocLookup_buildCanonGroup_aux raw k olds []
    rw [show assocLookup ([] : List (String × String)) (k ++ ":") = none from rfl] at h
    rw [buildCanonGroup, h, lastContribution]
    exact lastContribution_fold_eq raw k hnd olds none
  · intro habs
    clear hmem
    induction olds with
    | nil => rfl
    | cons o os ih =>
      have ho := habs o (List.mem_cons_self _ _)
      have hos : ∀ old ∈ os, assocLookup raw.groups old = none :=
        fun old hmo => habs old (List.mem_cons_of_mem _ hmo)
      simpa [buildCanonGroup, ho] using ih hos
  · intro p hp
    rcases mem_buildCanonGroup_aux raw olds [] p hp with h1 | h1
    · simp at h1
    · exact h1

/-- A RawRecord carrying the two camera source groups with a colliding key. -/
def rawCameras : RawRecord :=
  { emptyRaw with groups := [("Main camera", [("Resolution", "50MP")]),
      ("Selfie camera", [("Resolution", "16MP")])] }

/-- C1 witness: merging `"Main camera"` then `"Selfie camera"` into `Camera`
stores the colliding key `"Resolution:"` with the value of the last
contributing raw group. -/
theorem C1_witness :
    assocLookup (format_scraped_data rawCameras) "Camera" =
      some (CVal.grp (buildCanonGroup rawCameras ["Main camera", "Selfie camera"])) ∧
    assocLookup (buildCanonGroup rawCameras ["Main camera", "Selfie camera"])
      ("Resolution" ++ ":") = some "16MP" := by
  have h := C1_canonical_group_merge rawCameras (by decide) "Camera"
    ["Main camera", "Selfie camera"] (by decide)
  exact ⟨h.1, (h.2.1 "Resolution").trans (by decide)⟩

theorem takeWhile_dropWhile_append (p : Char → Bool) (l1 l2 : List Char)
    (h1 : ∀ a ∈ l1, p a = true) (h2 : ∀ c, l2.head? = some c → p c = false) :
    (l1 ++ l2).takeWhile p = l1 ∧ (l1 ++ l2).dropWhile p = l2 := by
  induction l1 with
  | nil =>
    simp only [List.nil_append]
    cases l2 with
    | nil => simp
    | cons c cs =>
      have := h2 c rfl
      simp [List.takeWhile_cons, List.dropWhile_cons, this]
  | cons a l1 ih =>
    have ha := h1 a (List.mem_cons_self _ _)
    have ih2 := ih (fun x hx => h1 x (List.mem_cons_of_mem _ hx))
    simp [List.takeWhile_cons, List.dropWhile_cons, ha, ih2.1, ih2.2]

theorem isPyWs_false_of_word (c : Char) (h : isWordChar c = true) : isPyWs c = false := by
  by_contra hc
  have hws : isPyWs c = true := by simpa using hc
  simp only [isPyWs, Bool.or_eq_true, beq_iff_eq] at hws
  rcases hws with ((((rfl | rfl) | rfl) | rfl) | rfl) | rfl <;> exact absurd h (by decide)

theorem isSymChar_false_of_ws (c : Char) (h : isPyWs c = true) : isSymChar c = false := by
  simp [isSymChar, h]

theorem ne_nl_of_sym (c : Char) (h : isSymChar c = true) : ¬ c = '\n' := by
  intro hc
  subst hc
  exact absurd h (by decide)

theorem pySubCore_self (r : List Char)
    (h : ((r.takeWhile isSymChar).isEmpty
      || ((r.dropWhile isSymChar).takeWhile isPyWs).isEmpty) = true) :
    pySubCore r = r := by
  simp only [pySubCore]
  rw [if_pos h]

theorem pySubRev_self (r : List Char)
    (h : (((dropLeadNl r).takeWhile isSymChar).isEmpty
      || (((dropLeadNl r).dropWhile isSymChar).takeWhile isPyWs).isEmpty) = true) :
    pySubRev r = r := by
  cases r with
  | nil => rfl
  | cons c rest =>
    by_cases hc : c = '\n'
    · subst hc
      simp only [dropLeadNl, if_true, reduceIte] at h
      have e1 : pySubRev ('\n' :: rest) = '\n' :: pySubCore rest := by
        simp [pySubRev]
      rw [e1, pySubCore_self rest h]
    · simp only [dropLeadNl, hc, if_false] at h
      simp only [pySubRev, hc, if_false]
      exact pySubCore_self (c :: rest) h

theorem takeWhile_append_of_all (p : Char → Bool) (l1 l2 : List Char)
    (h1 : ∀ a ∈ l1, p a = true) :
    (l1 ++ l2).takeWhile p = l1 ++ l2.takeWhile p ∧
      (l1 ++ l2).dropWhile p = l2.dropWhile p := by
  induction l1 with
  | nil => simp
  | cons a t ih =>
    have ha := h1 a (List.mem_cons_self _ _)
    have iht := ih (fun x hx => h1 x (List.mem_cons_of_mem _ hx))
    simp [List.takeWhile_cons, List.dropWhile_cons, ha, iht.1, iht.2]

/-- The character-level core of `pyStrip`. -/
def stripChars (l : List Char) : List Char :=
  ((l.dropWhile isPyWs).reverse.dropWhile isPyWs).reverse

theorem pyStrip_eq_stripChars (s : String) : pyStrip s = String.mk (stripChars s.data) := rfl

theorem stripChars_append_ws (d u : List Char) (hu : ∀ a ∈ u, isPyWs a = true) :
    stripChars (d ++ u) = stripChars d := by
  induction d with
  | nil =>
    simp only [List.nil_append]
    rw [stripChars, stripChars, List.dropWhile_eq_nil_iff.mpr hu]
    rfl
  | cons c t ih =>
    by_cases hc : isPyWs c = true
    · rw [List.cons_append, stripChars, stripChars, List.dropWhile_cons, List.dropWhile_cons,
        hc, if_pos rfl, if_pos rfl]
      rw [stripChars, stripChars] at ih
      exact ih
    · have hcf : isPyWs c = false := by simpa using hc
      rw [List.cons_append, stripChars, stripChars, List.dropWhile_cons, List.dropWhile_cons,
        hcf]
      simp only [Bool.false_eq_true, if_false]
      rw [List.reverse_cons, List.reverse_cons, List.reverse_append, List.append_assoc]
      rw [(takeWhile_append_of_all isPyWs u.reverse (t.reverse ++ [c])
        (fun a ha => hu a (List.mem_reverse.mp ha))).2]

theorem pyStrip_mk_trimRight (d : List Char) :
    pyStrip (String.mk ((d.reverse.dropWhile isPyWs).reverse)) = pyStrip (String.mk d) := by
  rw [pyStrip_eq_stripChars, pyStrip_eq_stripChars]
  have hd : d = (d.reverse.dropWhile isPyWs).reverse ++ (d.reverse.takeWhile isPyWs).reverse := by
    calc d = d.reverse.reverse := (List.reverse_reverse d).symm
      _ = (d.reverse.takeWhile isPyWs ++ d.reverse.dropWhile isPyWs).reverse := by
          rw [List.takeWhile_append_dropWhile]
      _ = (d.reverse.dropWhile isPyWs).reverse ++ (d.reverse.takeWhile isPyWs).reverse :=
          List.reverse_append _ _
  congr 1
  conv_rhs => rw [hd]
  exact (stripChars_append_ws _ _
    (fun a ha => List.mem_takeWhile_imp (List.mem_reverse.mp ha))).symm

theorem string_eq_of_data (a b : String) (h : a.data = b.data) : a = b := by
  calc a = String.mk a.data := (string_mk_data a).symm
    _ = String.mk b.data := by rw [h]
    _ = b := string_mk_data b

/-- Any character list ending (in reversed order: beginning) with a nonempty
`[^\w\s]` run followed by a nonempty whitespace run is the reversal of
`p ++ w ++ k` for strings `w` (nonempty, all whitespace) and `k` (nonempty,
all `[^\w\s]`). -/
theorem decompose_core (core : List Char)
    (h1 : (core.takeWhile isSymChar).isEmpty = false)
    (h2 : ((core.dropWhile isSymChar).takeWhile isPyWs).isEmpty = false) :
    ∃ p w k : String, w.data ≠ [] ∧ (∀ a ∈ w.data, isPyWs a = true) ∧
      k.data ≠ [] ∧ (∀ a ∈ k.data, isSymChar a = true) ∧
      (p ++ w ++ k).data = core.reverse := by
  refine ⟨String.mk ((core.dropWhile isSymChar).dropWhile isPyWs).reverse,
    String.mk ((core.dropWhile isSymChar).takeWhile isPyWs).reverse,
    String.mk (core.takeWhile isSymChar).reverse, ?_, ?_, ?_, ?_, ?_⟩
  · intro hx
    rw [List.reverse_eq_nil_iff] at hx
    rw [hx] at h2
    simp at h2
  · intro a ha
    exact List.mem_takeWhile_imp (List.mem_reverse.mp ha)
  · intro hx
    rw [List.reverse_eq_nil_iff] at hx
    rw [hx] at h1
    simp at h1
  · intro a ha
    exact List.mem_takeWhile_imp (List.mem_reverse.mp ha)
  · rw [string_data_append, string_data_append]
    calc ((core.dropWhile isSymChar).dropWhile isPyWs).reverse
          ++ ((core.dropWhile isSymChar).takeWhile isPyWs).reverse
          ++ (core.takeWhile isSymChar).reverse
        = ((core.takeWhile isSymChar) ++ ((core.dropWhile isSymChar).takeWhile isPyWs
            ++ (core.dropWhile isSymChar).dropWhile isPyWs)).reverse := by
          rw [List.reverse_append, List.reverse_append]
      _ = core.reverse := by
          rw [List.takeWhile_append_dropWhile, List.takeWhile_append_dropWhile]

/-- C8 counterexample: the claim reads "the cleaned group title is obtained by
removing a trailing run of non-word/non-space characters from the heading
text and trimming whitespace".  On the heading `"Network+"` the code's rule
(`re.sub(r'\s+[^\w\s]+$', '', t).strip()`) removes nothing, because the
pattern requires whitespace before the symbol run, while the claim's rule
removes the trailing `"+"`. -/
theorem C8_counterexample :
    clean_group_title "Network+" = "Network+" ∧
    claimClean "Network+" = "Network" ∧
    clean_group_title "Network+" ≠ claimClean "Network+" := by
  refine ⟨by decide, by decide, by decide⟩

/-- C8 (amended): the Extractor derives the cleaned group title by removing,
when the heading ends (apart from an optional single final newline) in a
nonempty run of non-word/non-space characters immediately preceded by at
least one whitespace character, that symbol run together with the preceding
whitespace, and then trimming whitespace; a heading with no such
whitespace-preceded trailing symbol run is only trimmed; and a group whose
cleaned title is empty is skipped entirely, contributing no key to the
RawRecord.  Clause 1 proves the removal for an arbitrary prefix `p` (no
constraint on how `p` ends) and an optional final newline; clause 2 shows
every heading on which the pattern matches decomposes that way, so together
with clause 3 the two cases cover all headings. -/
theorem C8_amended_title_cleaning :
    (∀ p w k n : String,
      w.data ≠ [] → (∀ c ∈ w.data, isPyWs c = true) →
      k.data ≠ [] → (∀ c ∈ k.data, isSymChar c = true) →
      (n = "" ∨ n = "\n") →
      clean_group_title (p ++ w ++ k ++ n) = pyStrip p) ∧
    (∀ s : String, hasTrailingWsSymRun s = true →
      ∃ p w k n : String, w.data ≠ [] ∧ (∀ c ∈ w.data, isPyWs c = true) ∧
        k.data ≠ [] ∧ (∀ c ∈ k.data, isSymChar c = true) ∧
        (n = "" ∨ n = "\n") ∧ s = p ++ w ++ k ++ n) ∧
    (∀ s : String, hasTrailingWsSymRun s = false → clean_group_title s = pyStrip s) ∧
    (∀ (gs1 gs2 : List RawGroup) (g : RawGroup)
      (acc : List (String × List (String × String))),
      clean_group_title (textOrNotAvailable g.heading) = "" →
      scrapeGroups (gs1 ++ g :: gs2) acc = scrapeGroups (gs1 ++ gs2) acc) := by
  refine ⟨?_, ?_, ?_, ?_⟩
  · intro p w k n hw hwall hk hkall hn
    have hkrev : k.data.reverse ≠ [] := by
      simpa [List.reverse_eq_nil_iff] using hk
    obtain ⟨c, t, hct⟩ := List.exists_cons_of_ne_nil hkrev
    have hcsym : isSymChar c = true := by
      have : c ∈ k.data.reverse := by rw [hct]; exact List.mem_cons_self _ _
      exact hkall c (List.mem_reverse.mp this)
    have hwrev : w.data.reverse ≠ [] := by
      simpa [List.reverse_eq_nil_iff] using hw
    obtain ⟨d, u, hdu⟩ := List.exists_cons_of_ne_nil hwrev
    have hdws : isPyWs d = true := by
      have : d ∈ w.data.reverse := by rw [hdu]; exact List.mem_cons_self _ _
      exact hwall d (List.mem_reverse.mp this)
    -- the symbol run of the reversed core is exactly the reversed k
    have hsyms := takeWhile_dropWhile_append isSymChar k.data.reverse
      (w.data.reverse ++ p.data.reverse)
      (fun a ha => hkall a (List.mem_reverse.mp ha))
      (by
        intro c0 hc0
        rw [hdu] at hc0
        simp only [List.cons_append, List.head?_cons, Option.some.injEq] at hc0
        rw [← hc0]
        exact isSymChar_false_of_ws d hdws)
    -- the whitespace run after it is the reversed w extended into p
    have hws := takeWhile_append_of_all isPyWs w.data.reverse p.data.reverse
      (fun a ha => hwall a (List.mem_reverse.mp ha))
    have hcore : pySubCore (k.data.reverse ++ (w.data.reverse ++ p.data.reverse)) =
        p.data.reverse.dropWhile isPyWs := by
      simp only [pySubCore, hsyms.1, hsyms.2, hws.1, hws.2]
      rw [if_neg]
      simp only [List.isEmpty_eq_true, Bool.or_eq_true, not_or]
      exact ⟨by rw [hct]; simp, by rw [hdu]; simp⟩
    have hcorerev : pySubRev (k.data.reverse ++ (w.data.reverse ++ p.data.reverse)) =
        p.data.reverse.dropWhile isPyWs := by
      rw [hct]
      simp only [List.cons_append]
      rw [pySubRev, if_neg (ne_nl_of_sym c hcsym)]
      rw [← List.cons_append, ← hct]
      exact hcore
    rcases hn with rfl | rfl
    · have hdata : (p ++ w ++ k ++ "").data.reverse =
          k.data.reverse ++ (w.data.reverse ++ p.data.reverse) := by
        rw [string_data_append, string_data_append, string_data_append]
        show (p.data ++ w.data ++ k.data ++ ([] : List Char)).reverse = _
        rw [List.append_nil, List.reverse_append, List.reverse_append]
      rw [clean_group_title, pySubTrailingSymRun, hdata, hcorerev]
      exact pyStrip_mk_trimRight p.data
    · have hdata : (p ++ w ++ k ++ "\n").data.reverse =
          '\n' :: (k.data.reverse ++ (w.data.reverse ++ p.data.reverse)) := by
        rw [string_data_append, string_data_append, string_data_append]
        show (p.data ++ w.data ++ k.data ++ ['\n']).reverse = _
        rw [List.reverse_append, List.reverse_append, List.reverse_append]
        rfl
      have hnlrev : pySubRev ((p ++ w ++ k ++ "\n").data.reverse) =
          '\n' :: (p.data.reverse.dropWhile isPyWs) := by
        rw [hdata]
        have e1 : pySubRev ('\n' :: (k.data.reverse ++ (w.data.reverse ++ p.data.reverse))) =
            '\n' :: pySubCore (k.data.reverse ++ (w.data.reverse ++ p.data.reverse)) := by
          simp [pySubRev]
        rw [e1]
        exact congrArg (fun l => '\n' :: l) hcore
      rw [clean_group_title, pySubTrailingSymRun, hnlrev, List.reverse_cons,
        pyStrip_eq_stripChars]
      show String.mk (stripChars ((p.data.reverse.dropWhile isPyWs).reverse ++ ['\n'])) =
        pyStrip p
      rw [stripChars_append_ws _ ['\n'] (by decide)]
      rw [← pyStrip_eq_stripChars]
      exact pyStrip_mk_trimRight p.data
  · intro s hs
    rcases hrev : s.data.reverse with _ | ⟨c, rest⟩
    · exfalso
      rw [hasTrailingWsSymRun, hrev] at hs
      simp [dropLeadNl] at hs
    · by_cases hc : c = '\n'
      · subst hc
        rw [hasTrailingWsSymRun, hrev] at hs
        simp only [dropLeadNl, reduceIte, Bool.and_eq_true, Bool.not_eq_true'] at hs
        obtain ⟨p, w, k, hw, hwall, hk, hkall, hdata⟩ := decompose_core rest hs.1 hs.2
        refine ⟨p, w, k, "\n", hw, hwall, hk, hkall, Or.inr rfl, ?_⟩
        apply string_eq_of_data
        rw [string_data_append, hdata]
        have : s.data = ('\n' :: rest).reverse := by
          rw [← hrev, List.reverse_reverse]
        rw [this, List.reverse_cons]
      · rw [hasTrailingWsSymRun, hrev] at hs
        simp only [dropLeadNl, hc, if_false, Bool.and_eq_true, Bool.not_eq_true'] at hs
        obtain ⟨p, w, k, hw, hwall, hk, hkall, hdata⟩ := decompose_core (c :: rest) hs.1 hs.2
        refine ⟨p, w, k, "", hw, hwall, hk, hkall, Or.inl rfl, ?_⟩
        apply string_eq_of_data
        rw [string_data_append, hdata]
        have : s.data = (c :: rest).reverse := by
          rw [← hrev, List.reverse_reverse]
        rw [this]
        show (c :: rest).reverse = (c :: rest).reverse ++ []
        rw [List.append_nil]
  · intro s hns
    have h : (((dropLeadNl s.data.reverse).takeWhile isSymChar).isEmpty
        || (((dropLeadNl s.data.reverse).dropWhile isSymChar).takeWhile isPyWs).isEmpty)
        = true := by
      rw [hasTrailingWsSymRun] at hns
      simp only [Bool.and_eq_false_iff, Bool.not_eq_false'] at hns
      simp only [Bool.or_eq_true]
      rcases hns with h | h
      · exact Or.inl h
      · exact Or.inr h
    rw [clean_group_title, pySubTrailingSymRun, pySubRev_self _ h, List.reverse_reverse,
      string_mk_data]
  · intro gs1 gs2 g acc h
    rw [scrapeGroups, scrapeGroups, List.foldl_append, List.foldl_append, List.foldl_cons]
    congr 1
    simp [h]

/-- C8 witness: headings with a whitespace-preceded trailing symbol run are
cleaned down to their trimmed prefix — including a prefix ending in a symbol
(`"offer! ★"`) and a heading with a final newline (`"X **\n"`) — and a group
whose heading cleans to the empty title contributes nothing. -/
theorem C8_witness :
    clean_group_title ("offer!" ++ " " ++ "★" ++ "") = pyStrip "offer!" ∧
    clean_group_title ("X" ++ " " ++ "**" ++ "\n") = pyStrip "X" ∧
    scrapeGroups ([] ++ (⟨some "", []⟩ : RawGroup) :: []) [] = scrapeGroups ([] ++ []) [] := by
  have h := C8_amended_title_cleaning
  refine ⟨?_, ?_, ?_⟩
  · exact h.1 "offer!" " " "★" "" (by decide) (by decide) (by decide) (by decide) (Or.inl rfl)
  · exact h.1 "X" " " "**" "\n" (by decide) (by decide) (by decide) (by decide) (Or.inr rfl)
  · exact h.2.2.2 [] [] ⟨some "", []⟩ [] (by decide)

end Scraper
